import Mathlib

/-!
# Verification of the Daywise local formatter

Shallow embedding of the offline formatter of the Daywise Obsidian plugin
(src/main.ts): the method localFormatToTable together with its inner helper
normalizeTime, the regular expressions it uses, and the surrounding string
pipeline.  Lines are modelled as lists of characters; the JavaScript regular
expressions of the source are modelled by deterministic matchers whose
backtracking has been resolved by hand (each resolution is justified in the
comment of the corresponding definition).  All definitions are executable and
kernel-reducible (structural or fuel-based recursion only), so that concrete
lines can be evaluated inside proofs.

Character classes follow the JavaScript semantics restricted to the code
points that can actually occur: digits and word characters are ASCII exactly
as in JS, the whitespace class lists the code points of JS \s, and case
mapping is ASCII (the letters the parser inspects are ASCII).
-/

set_option maxRecDepth 100000 in
/-- The regex class \d : ASCII digits 0-9. -/
def isDigitC (c : Char) : Bool := 48 ≤ c.toNat && c.toNat ≤ 57

/-- JS word characters for \b boundaries: [A-Za-z0-9_]. -/
def isWordC (c : Char) : Bool :=
  isDigitC c || (97 ≤ c.toNat && c.toNat ≤ 122) || (65 ≤ c.toNat && c.toNat ≤ 90) ||
    c.toNat == 95

/-- JS whitespace class \s (also the set removed by String.prototype.trim). -/
def isSpaceC (c : Char) : Bool :=
  c.toNat == 32 || c.toNat == 9 || c.toNat == 10 || c.toNat == 11 || c.toNat == 12 ||
  c.toNat == 13 || c.toNat == 160 || c.toNat == 5760 ||
  (8192 ≤ c.toNat && c.toNat ≤ 8202) || c.toNat == 8232 || c.toNat == 8233 ||
  c.toNat == 8239 || c.toNat == 8287 || c.toNat == 12288 || c.toNat == 65279

/-- Word test on the character just before the current position (none = start of text). -/
def isWordOpt : Option Char → Bool
  | none => false
  | some c => isWordC c

/-- Word test on the character at the current position (empty = end of text). -/
def isWordHead : List Char → Bool
  | [] => false
  | c :: _ => isWordC c

/-- isSpaceC on the head of a list, false for the empty list. -/
def isSpaceHead : List Char → Bool
  | [] => false
  | c :: _ => isSpaceC c

/-- Last element of a list, or a default previous character: used to thread the
character preceding a scan position. -/
def lastD (p : Option Char) (as : List Char) : Option Char :=
  as.foldl (fun _ c => some c) p

/-- Does the text start with the pattern? -/
def beginsWith : List Char → List Char → Bool
  | [], _ => true
  | _ :: _, [] => false
  | p :: ps, c :: cs => p == c && beginsWith ps cs

/-- JS String.prototype.includes : does pat occur as a contiguous subsequence of text? -/
def containsSeq : List Char → List Char → Bool
  | [], pat => beginsWith pat []
  | c :: t, pat => beginsWith pat (c :: t) || containsSeq t pat

/-- JS String.prototype.replace with a plain-string pattern and empty replacement:
remove the first occurrence of pat, or return the text unchanged if absent. -/
def removeFirstOccur : List Char → List Char → List Char
  | [], _ => []
  | c :: t, pat =>
    if beginsWith pat (c :: t) then (c :: t).drop pat.length
    else c :: removeFirstOccur t pat

/-- Result of a successful match of the source's time regex
/\b(\d{1,2})(?::(\d{2}))?\s*(am|pm|AM|PM)?\b/ : the full matched substring m[0]
and the capture groups m[1] (hour digits), m[2] (minute digits), m[3] (meridiem). -/
structure TimeMatch where
  matched : List Char
  g1 : List Char
  g2 : Option (List Char)
  g3 : Option (List Char)
deriving DecidableEq, Repr

/-- The alternation (am|pm|AM|PM) at the current position.  The regex has no i
flag, so exactly these four two-letter strings can match; at a given position at
most one alternative fits, hence no backtracking between alternatives. -/
def merAlt : List Char → Option (List Char × List Char)
  | c1 :: c2 :: r =>
    if c1 == 'a' && c2 == 'm' then some (['a', 'm'], r)
    else if c1 == 'p' && c2 == 'm' then some (['p', 'm'], r)
    else if c1 == 'A' && c2 == 'M' then some (['A', 'M'], r)
    else if c1 == 'P' && c2 == 'M' then some (['P', 'M'], r)
    else none
  | _ => none

/-- The suffix \s*\b of the time regex when the optional meridiem matches empty,
with the character before the input known to be a digit (a word character).
Greedy \s* backtracks from all spaces down: with k spaces consumed the final \b
holds only at j = k (boundary present iff a word character follows the spaces)
or at j = 0 (boundary between the digit and a following space, or end/non-word).
Positions 0 < j < k sit between two spaces and never give a boundary. -/
def emptyMerTail (sp rest : List Char) : Option (List Char × Option (List Char)) :=
  if isWordHead rest then (if sp.isEmpty then none else some (sp, none))
  else some ([], none)

/-- The suffix \s*(am|pm|AM|PM)?\b of the time regex, with the character before
the input known to be a digit.  The meridiem letters are word characters, so the
alternation can only match after all spaces (greedy \s*); if it matches, the
final \b needs a non-word character (or the end) after it, otherwise the
optional group matches empty and emptyMerTail resolves the \s*\b backtracking.
Returns (consumed characters, captured group 3). -/
def tailMatch (cs : List Char) : Option (List Char × Option (List Char)) :=
  match merAlt (cs.dropWhile isSpaceC) with
  | some (mer, r) =>
    if isWordHead r then emptyMerTail (cs.takeWhile isSpaceC) (cs.dropWhile isSpaceC)
    else some (cs.takeWhile isSpaceC ++ mer, some mer)
  | none => emptyMerTail (cs.takeWhile isSpaceC) (cs.dropWhile isSpaceC)

/-- Continuation of the time regex after the hour digits when the optional
minute group (?::(\d{2}))? matches empty. -/
def matchNoMin (ds r1 : List Char) : Option TimeMatch :=
  match tailMatch r1 with
  | some (t, g3) => some ⟨ds ++ t, ds, none, g3⟩
  | none => none

/-- Attempt of the whole time regex at a fixed position: prev is the character
before the position.  Backtracking notes: (1) \d{1,2} never usefully backtracks
from two digits to one, because after a single digit the next character is
another digit and the trailing \b fails against it, so the hour group is simply
the digit run when it has length 1 or 2, and the attempt fails when the run is
longer; (2) if the minute group matches but the rest of the pattern fails, the
minute group backtracks to empty and the continuation from the colon always
succeeds (the \b between the hour digit and the colon holds). -/
def matchAt (prev : Option Char) (cs : List Char) : Option TimeMatch :=
  if isWordOpt prev then none
  else if (cs.takeWhile isDigitC).length = 0 then none
  else if 3 ≤ (cs.takeWhile isDigitC).length then none
  else
    match cs.dropWhile isDigitC with
    | ':' :: e1 :: e2 :: r2 =>
      if isDigitC e1 && isDigitC e2 then
        match tailMatch r2 with
        | some (t, g3) =>
          some ⟨cs.takeWhile isDigitC ++ ':' :: e1 :: e2 :: t, cs.takeWhile isDigitC,
            some [e1, e2], g3⟩
        | none => matchNoMin (cs.takeWhile isDigitC) (':' :: e1 :: e2 :: r2)
      else matchNoMin (cs.takeWhile isDigitC) (':' :: e1 :: e2 :: r2)
    | r1 => matchNoMin (cs.takeWhile isDigitC) r1

/-- Left-to-right scan of String.prototype.match with a non-global regex: try
the pattern at every position, return the first success together with the text
before the match and the text after it. -/
def scanFrom (prev : Option Char) (cs : List Char) : Option (List Char × TimeMatch × List Char) :=
  match matchAt prev cs with
  | some m => some ([], m, cs.drop m.matched.length)
  | none =>
    match cs with
    | [] => none
    | c :: cs' =>
      match scanFrom (some c) cs' with
      | some (pre, m, rest) => some (c :: pre, m, rest)
      | none => none

/-- line.match(timeRegex), returning just the match object. -/
def firstMatchStr (s : String) : Option TimeMatch :=
  (scanFrom none s.data).map (fun r => r.2.1)

/-- parseInt on a string of ASCII digits. -/
def parseDigits (cs : List Char) : Nat :=
  cs.foldl (fun a c => a * 10 + (c.toNat - 48)) 0

/-- minute.toString().padStart(2, '0'). -/
def pad2 (n : Nat) : String :=
  if n < 10 then "0" ++ Nat.repr n else Nat.repr n

/-- The template literal of normalizeTime: hour, colon, padded minute, space, meridiem. -/
def renderTime (h mv : Nat) (mer : String) : String :=
  Nat.repr h ++ ":" ++ pad2 mv ++ " " ++ mer

/-- parseInt(match[2] ?? '0', 10): the minute, defaulting to 0 when the group is absent. -/
def minuteOf (g2 : Option (List Char)) : Nat :=
  match g2 with
  | some d => parseDigits d
  | none => 0

/-- (match[3] || '').toUpperCase(): the matched meridiem uppercased, or empty. -/
def mer0Of (g3 : Option (List Char)) : String :=
  match g3 with
  | some m => ⟨m.map Char.toUpper⟩
  | none => ""

/-- The meridiem after the inference step of normalizeTime: when absent, hours
7-11 become AM and every other hour becomes PM. -/
def inferMer (hour : Nat) (mer0 : String) : String :=
  if mer0 = "" then (if 7 ≤ hour ∧ hour ≤ 11 then "AM" else "PM") else mer0

/-- if (hour === 0) hour = 12. -/
def hourAfterZero (hour : Nat) : Nat := if hour = 0 then 12 else hour

/-- The hour update of: if (hour > 12) hour -= 12. -/
def finalHour (hour2 : Nat) : Nat := if 12 < hour2 then hour2 - 12 else hour2

/-- The meridiem update of: if (hour > 12) meridiem = 'PM'. -/
def finalMer (hour2 : Nat) (mer1 : String) : String := if 12 < hour2 then "PM" else mer1

/-- The body of the source's normalizeTime on a (non-null) match: parse the
groups, infer a missing meridiem from the original hour (hours 7-11 are AM,
everything else PM), render hour 0 as 12, reduce hours above 12 by 12 forcing
PM, and produce the canonical string; the steps are applied in source order
(meridiem inference first, then the hour-0 substitution, then the
above-12 reduction). -/
def normalizeTimeCore (tm : TimeMatch) : String :=
  renderTime (finalHour (hourAfterZero (parseDigits tm.g1)))
    (minuteOf tm.g2)
    (finalMer (hourAfterZero (parseDigits tm.g1))
      (inferMer (parseDigits tm.g1) (mer0Of tm.g3)))

/-- The source's normalizeTime: null on a null match. -/
def normalizeTime (m : Option TimeMatch) : Option String := m.map normalizeTimeCore

/-- normalizeTime applied to the first time-regex match of a string. -/
def normalizeFirst (s : String) : Option String := normalizeTime (firstMatchStr s)

/-- One attempt of the split regex /\b(?:till|to)\b/i at a fixed position,
returning the length of the keyword when it matches.  The i flag is ASCII case
folding here; at one position at most one alternative can fit (their second
letters differ), and the surrounding boundaries require a non-word character
(or text edge) on both sides. -/
def kwAt (prev : Option Char) (cs : List Char) : Option Nat :=
  if isWordOpt prev then none
  else
    match cs with
    | c1 :: c2 :: rest2 =>
      if c1.toLower == 't' && c2.toLower == 'i' then
        match rest2 with
        | c3 :: c4 :: r =>
          if c3.toLower == 'l' && c4.toLower == 'l' && !(isWordHead r) then some 4 else none
        | _ => none
      else if c1.toLower == 't' && c2.toLower == 'o' && !(isWordHead rest2) then some 2
      else none
    | _ => none

/-- String.prototype.split on the keyword regex, accumulating the current piece;
fuel is an upper bound on the number of steps (each step consumes at least one
character). -/
def splitAux : Nat → Option Char → List Char → List Char → List (List Char)
  | 0, _, _, acc => [acc.reverse]
  | fuel + 1, prev, cs, acc =>
    match kwAt prev cs with
    | some k => acc.reverse :: splitAux fuel (lastD prev (cs.take k)) (cs.drop k) []
    | none =>
      match cs with
      | [] => [acc.reverse]
      | c :: cs' => splitAux fuel (some c) cs' (c :: acc)

/-- line.split(/\b(?:till|to)\b/i). -/
def splitTillTo (cs : List Char) : List (List Char) :=
  splitAux (cs.length + 1) none cs []

/-- Lazy body (.*?) of the bracket regex: scan for the nearest closing bracket,
failing on the characters that JS . does not match (line terminators). -/
def innerTo : List Char → Option (List Char × List Char)
  | [] => none
  | c :: cs' =>
    if c == ']' then some ([], cs')
    else if c == '\n' || c == '\r' || c.toNat == 8232 || c.toNat == 8233 then none
    else
      match innerTo cs' with
      | some (i, r) => some (c :: i, r)
      | none => none

/-- line.match(/\[(.*?)\]/) : the first opening bracket that is followed by a
closing bracket (with no line terminator between), with m[0] and the inner
capture m[1]. -/
def bracketMatch : List Char → Option (List Char × List Char)
  | [] => none
  | c :: cs' =>
    if c == '[' then
      match innerTo cs' with
      | some (inner, _) => some ('[' :: (inner ++ [']']), inner)
      | none => bracketMatch cs'
    else bracketMatch cs'

/-- One attempt of /\b(at|around|by)\b/i at a fixed position (alternatives in
source order; at one position at most one alternative can fit). -/
def wordKwAt (prev : Option Char) (cs : List Char) : Option Nat :=
  if isWordOpt prev then none
  else
    match cs with
    | c1 :: c2 :: rest2 =>
      if c1.toLower == 'a' && c2.toLower == 't' && !(isWordHead rest2) then some 2
      else if c1.toLower == 'a' && c2.toLower == 'r' then
        match rest2 with
        | c3 :: c4 :: c5 :: c6 :: r =>
          if c3.toLower == 'o' && c4.toLower == 'u' && c5.toLower == 'n' &&
             c6.toLower == 'd' && !(isWordHead r) then some 6
          else none
        | _ => none
      else if c1.toLower == 'b' && c2.toLower == 'y' && !(isWordHead rest2) then some 2
      else none
    | _ => none

/-- .replace(/\b(at|around|by)\b/i, '') : remove the first match only. -/
def removeWordFirst (prev : Option Char) : List Char → List Char
  | [] => []
  | c :: cs' =>
    match wordKwAt prev (c :: cs') with
    | some k => (c :: cs').drop k
    | none => c :: removeWordFirst (some c) cs'

/-- String.prototype.trim : drop \s characters from both ends. -/
def jsTrim (cs : List Char) : List Char :=
  ((cs.dropWhile isSpaceC).reverse.dropWhile isSpaceC).reverse

/-- .replace(/^-+\s*/, '') : one or more leading dashes and following whitespace. -/
def dropLeadingDashes (cs : List Char) : List Char :=
  match cs with
  | '-' :: _ => (cs.dropWhile (fun c => c == '-')).dropWhile isSpaceC
  | _ => cs

/-- Worker for .replace(/\s{2,}/g, ' ') : every run of two or more whitespace
characters becomes a single space; a single whitespace character is kept as is. -/
def collapseAux : Nat → List Char → List Char
  | 0, cs => cs
  | _ + 1, [] => []
  | fuel + 1, c :: cs =>
    if isSpaceC c && isSpaceHead cs then ' ' :: collapseAux fuel (cs.dropWhile isSpaceC)
    else c :: collapseAux fuel cs

/-- .replace(/\s{2,}/g, ' '). -/
def collapseSpaces (cs : List Char) : List Char := collapseAux (cs.length + 1) cs

/-- .replace(/[!]+/g, '') : remove every exclamation mark. -/
def removeExclam (cs : List Char) : List Char := cs.filter (fun c => !(c == '!'))

/-- .replace(/\s*-\s*$/, '') : the match, when it exists, is the last dash of
the string followed only by whitespace, together with the whitespace
immediately before that dash. -/
def dropTrailDash (cs : List Char) : List Char :=
  match cs.reverse.dropWhile isSpaceC with
  | '-' :: r' => (r'.dropWhile isSpaceC).reverse
  | _ => cs

/-- The activity cleanup chain of localFormatToTable (source lines 133-138). -/
def cleanupActivity (cs : List Char) : List Char :=
  jsTrim (dropTrailDash (removeExclam (collapseSpaces (dropLeadingDashes cs))))

/-- content.split(/\r?\n/) : a lone carriage return does not separate lines. -/
def splitLinesAux : List Char → List Char → List (List Char)
  | [], acc => [acc.reverse]
  | '\r' :: '\n' :: rest, acc => acc.reverse :: splitLinesAux rest []
  | '\n' :: rest, acc => acc.reverse :: splitLinesAux rest []
  | c :: rest, acc => splitLinesAux rest (c :: acc)

/-- content.split(/\r?\n/).map(l => l.trim()).filter(Boolean). -/
def nonBlankLines (s : String) : List (List Char) :=
  ((splitLinesAux s.data []).map jsTrim).filter (fun l => !l.isEmpty)

/-- One output row, as pushed by localFormatToTable. -/
structure Row where
  time : String
  activity : String
  notes : String
deriving DecidableEq, Repr

/-- The JS truthiness default a || b for strings: b when a is empty. -/
def orElseStr (a b : String) : String := if a = "" then b else a

/-- The notes variable: the inner capture of the bracket match, or empty. -/
def notesOf (l : List Char) : String :=
  match bracketMatch l with
  | some (_, inner) => ⟨inner⟩
  | none => ""

/-- The activity variable right after the bracket step (source lines 101-105):
the line with the first bracketed fragment removed and trimmed; the spec calls
this the working text. -/
def workingText (l : List Char) : List Char :=
  match bracketMatch l with
  | some (m0, _) => jsTrim (removeFirstOccur l m0)
  | none => l

/-- parts[0].replace(timeRegex, '') : remove the regex match at its position. -/
def regexRemoveFirst (cs : List Char) : List Char :=
  match scanFrom none cs with
  | some (pre, _, rest) => pre ++ rest
  | none => cs

/-- The range-detection block (source lines 107-120): when the lowercased line
contains till or to, split the original line on the keyword regex; if that
yields exactly two parts and each part contains a time token, produce the en
dash range string and the activity candidate built from the first part. -/
def rangeResult (l : List Char) : Option (String × List Char) :=
  if containsSeq (l.map Char.toLower) ['t', 'i', 'l', 'l'] ||
     containsSeq (l.map Char.toLower) ['t', 'o'] then
    match splitTillTo l with
    | [p0, p1] =>
      match normalizeTime ((scanFrom none p0).map (fun r => r.2.1)),
            normalizeTime ((scanFrom none p1).map (fun r => r.2.1)) with
      | some s, some e => some (s ++ "–" ++ e, jsTrim (regexRemoveFirst p0))
      | _, _ => none
    | _ => none
  else none

/-- The loop body of localFormatToTable for one trimmed non-blank line:
bracket extraction, range detection on the original line, single-time fallback
on the original line, activity cleanup, and the push with the absence markers. -/
def processLine (l : List Char) : Row :=
  match rangeResult l with
  | some (t, act) =>
    ⟨orElseStr t "—", orElseStr ⟨cleanupActivity act⟩ "—", notesOf l⟩
  | none =>
    match scanFrom none l with
    | some (_, m, _) =>
      ⟨orElseStr (normalizeTimeCore m) "—",
       orElseStr ⟨cleanupActivity (jsTrim (removeWordFirst none (removeFirstOccur l m.matched)))⟩ "—",
       notesOf l⟩
    | none =>
      ⟨"—", orElseStr ⟨cleanupActivity (workingText l)⟩ "—", notesOf l⟩

/-- processLine on a string. -/
def processLineStr (s : String) : Row := processLine s.data

/-- The rows array of localFormatToTable. -/
def localRows (content : String) : List Row := (nonBlankLines content).map processLine

/-- The body-row template literal: cells separated by pipes with single-space
padding, empty notes rendered as a plain dash. -/
def renderRow (r : Row) : String :=
  "| " ++ r.time ++ " | " ++ r.activity ++ " | " ++ orElseStr r.notes "-" ++ " |"

/-- Array.prototype.join('\n'). -/
def joinWith : List String → String
  | [] => ""
  | [s] => s
  | s :: rest => s ++ "\n" ++ joinWith rest

/-- The table header row. -/
def headerStr : String := "| Time | Activity | Notes |"

/-- The table separator row. -/
def sepStr : String := "|---|---|---|"

/-- The source's localFormatToTable : split into trimmed non-blank lines,
build one row per line, and render the three-part table. -/
def localFormatToTable (content : String) : String :=
  headerStr ++ "\n" ++ sepStr ++ "\n" ++ joinWith ((localRows content).map renderRow)

/-- A well-formed three-column table: the fixed header and separator rows
followed by body rows, one per cell triple, each cell non-empty (absence
markers substituted for empty fields). -/
def wellFormedTable (s : String) : Prop :=
  ∃ cells : List (String × String × String),
    (∀ c ∈ cells, c.1 ≠ "" ∧ c.2.1 ≠ "" ∧ c.2.2 ≠ "") ∧
    s = headerStr ++ "\n" ++ sepStr ++ "\n" ++
        joinWith (cells.map (fun c => "| " ++ c.1 ++ " | " ++ c.2.1 ++ " | " ++ c.2.2 ++ " |"))

/-- A rendered time token with hour bounded by hb, minute bounded by mb, and an
explicit meridiem. -/
def timeTokenOK (hb mb : Nat) (t : String) : Prop :=
  ∃ h mv mer, 1 ≤ h ∧ h ≤ hb ∧ mv ≤ mb ∧ (mer = "AM" ∨ mer = "PM") ∧
    t = renderTime h mv mer

/-- Shape of a row's time field: absence marker, a single rendered token, or an
en dash range of two rendered tokens. -/
def timeFieldOK (hb mb : Nat) (t : String) : Prop :=
  t = "—" ∨ timeTokenOK hb mb t ∨
    ∃ a b, timeTokenOK hb mb a ∧ timeTokenOK hb mb b ∧ t = a ++ "–" ++ b

/-- A standalone one- or two-digit number starts at the current position: the
previous character is not a word character, the digit run here has length one
or two, and the character after the run is not a word character. -/
def standaloneAt (prev : Option Char) (cs : List Char) : Bool :=
  !(isWordOpt prev) &&
    ((cs.takeWhile isDigitC).length == 1 || (cs.takeWhile isDigitC).length == 2) &&
    !(isWordHead (cs.dropWhile isDigitC))

/-- The text contains a standalone one- or two-digit number at some position. -/
def hasStandaloneNum : Option Char → List Char → Bool
  | prev, [] => standaloneAt prev []
  | prev, c :: cs' => standaloneAt prev (c :: cs') || hasStandaloneNum (some c) cs'

/-! ## Basic facts about the string utilities -/

theorem strAppendData (a b : String) : (a ++ b).data = a.data ++ b.data := rfl

theorem orElseStr_ne {a b : String} (hb : b ≠ "") : orElseStr a b ≠ "" := by
  unfold orElseStr
  split
  · exact hb
  · assumption

theorem endash_mem (a b : String) : ('–' : Char) ∈ (a ++ "–" ++ b).data := by
  rw [strAppendData, strAppendData]
  exact List.mem_append_left _ (List.mem_append_right _ (by decide))

theorem endash_append_ne_emdash (a b : String) : a ++ "–" ++ b ≠ "—" := by
  intro h
  have hm := endash_mem a b
  rw [h] at hm
  exact absurd hm (by decide)

theorem endash_append_ne_empty (a b : String) : a ++ "–" ++ b ≠ "" := by
  intro h
  have hm := endash_mem a b
  rw [h] at hm
  exact absurd hm (by decide)

theorem colon_mem_renderTime (h mv : Nat) (mer : String) :
    (':' : Char) ∈ (renderTime h mv mer).data := by
  unfold renderTime
  simp only [strAppendData]
  exact List.mem_append_left _ (List.mem_append_left _
    (List.mem_append_left _ (List.mem_append_right _ (by decide))))

theorem renderTime_ne_emdash (h mv : Nat) (mer : String) : renderTime h mv mer ≠ "—" := by
  intro he
  have hm := colon_mem_renderTime h mv mer
  rw [he] at hm
  exact absurd hm (by decide)

theorem renderTime_ne_empty (h mv : Nat) (mer : String) : renderTime h mv mer ≠ "" := by
  intro he
  have hm := colon_mem_renderTime h mv mer
  rw [he] at hm
  exact absurd hm (by decide)

theorem normalizeTimeCore_shape (tm : TimeMatch) :
    ∃ h mv mer, normalizeTimeCore tm = renderTime h mv mer := by
  unfold normalizeTimeCore
  exact ⟨_, _, _, rfl⟩

/-! ## Well-formedness of the groups of a successful time-regex match -/

theorem merAlt_spec {cs m r} (h : merAlt cs = some (m, r)) :
    m = ['a', 'm'] ∨ m = ['p', 'm'] ∨ m = ['A', 'M'] ∨ m = ['P', 'M'] := by
  unfold merAlt at h
  split at h
  · split_ifs at h <;> simp_all
  · simp at h

theorem merAlt_isWordHead {cs x} (h : merAlt cs = some x) : isWordHead cs = true := by
  match cs with
  | [] => simp [merAlt] at h
  | [c1] => simp [merAlt] at h
  | c1 :: c2 :: r =>
    simp only [merAlt] at h
    split_ifs at h with h1 h2 h3 h4
    · rw [Bool.and_eq_true, beq_iff_eq, beq_iff_eq] at h1
      obtain ⟨rfl, -⟩ := h1
      show isWordC 'a' = true
      decide
    · rw [Bool.and_eq_true, beq_iff_eq, beq_iff_eq] at h2
      obtain ⟨rfl, -⟩ := h2
      show isWordC 'p' = true
      decide
    · rw [Bool.and_eq_true, beq_iff_eq, beq_iff_eq] at h3
      obtain ⟨rfl, -⟩ := h3
      show isWordC 'A' = true
      decide
    · rw [Bool.and_eq_true, beq_iff_eq, beq_iff_eq] at h4
      obtain ⟨rfl, -⟩ := h4
      show isWordC 'P' = true
      decide

theorem emptyMerTail_g3 {sp rest t g3} (h : emptyMerTail sp rest = some (t, g3)) :
    g3 = none := by
  unfold emptyMerTail at h
  split_ifs at h <;> simp_all

theorem tailMatch_g3 {cs t g3} (h : tailMatch cs = some (t, g3)) :
    g3 = none ∨ g3 = some ['a', 'm'] ∨ g3 = some ['p', 'm'] ∨
      g3 = some ['A', 'M'] ∨ g3 = some ['P', 'M'] := by
  unfold tailMatch at h
  split at h
  next mer r heq =>
    split_ifs at h
    · exact Or.inl (emptyMerTail_g3 h)
    · rcases merAlt_spec heq with h1 | h1 | h1 | h1 <;> simp_all
  next => exact Or.inl (emptyMerTail_g3 h)

theorem matchNoMin_wf {ds r1 tm} (h : matchNoMin ds r1 = some tm) :
    tm.g1 = ds ∧ tm.g2 = none ∧
      (tm.g3 = none ∨ tm.g3 = some ['a', 'm'] ∨ tm.g3 = some ['p', 'm'] ∨
        tm.g3 = some ['A', 'M'] ∨ tm.g3 = some ['P', 'M']) := by
  unfold matchNoMin at h
  split at h
  next t g3 heq =>
    cases h
    exact ⟨rfl, rfl, tailMatch_g3 heq⟩
  next => simp at h

theorem matchAt_wf {prev cs tm} (h : matchAt prev cs = some tm) :
    (tm.g1.length = 1 ∨ tm.g1.length = 2) ∧ (∀ c ∈ tm.g1, isDigitC c) ∧
      (tm.g2 = none ∨ ∃ e1 e2, tm.g2 = some [e1, e2] ∧ isDigitC e1 ∧ isDigitC e2) ∧
      (tm.g3 = none ∨ tm.g3 = some ['a', 'm'] ∨ tm.g3 = some ['p', 'm'] ∨
        tm.g3 = some ['A', 'M'] ∨ tm.g3 = some ['P', 'M']) := by
  unfold matchAt at h
  split_ifs at h with h0 h1 h2
  have hlen : (cs.takeWhile isDigitC).length = 1 ∨ (cs.takeWhile isDigitC).length = 2 := by
    omega
  have hdig : ∀ c ∈ cs.takeWhile isDigitC, isDigitC c := fun c hc => List.mem_takeWhile_imp hc
  split at h
  next e1 e2 r2 heq =>
    split_ifs at h with hde
    · split at h
      next t g3 heqt =>
        cases h
        refine ⟨hlen, hdig, Or.inr ⟨e1, e2, rfl, ?_, ?_⟩, tailMatch_g3 heqt⟩ <;>
          simp_all
      next =>
        obtain ⟨hg1, hg2, hg3⟩ := matchNoMin_wf h
        rw [hg1, hg2]
        exact ⟨hlen, hdig, Or.inl rfl, hg3⟩
    · obtain ⟨hg1, hg2, hg3⟩ := matchNoMin_wf h
      rw [hg1, hg2]
      exact ⟨hlen, hdig, Or.inl rfl, hg3⟩
  next =>
    obtain ⟨hg1, hg2, hg3⟩ := matchNoMin_wf h
    rw [hg1, hg2]
    exact ⟨hlen, hdig, Or.inl rfl, hg3⟩

theorem isDigitC_bounds {c : Char} (h : isDigitC c = true) :
    48 ≤ c.toNat ∧ c.toNat ≤ 57 := by
  unfold isDigitC at h
  simp [Bool.and_eq_true, decide_eq_true_eq] at h
  exact h

theorem parseDigits_le {cs : List Char} (hd : ∀ c ∈ cs, isDigitC c)
    (hl : cs.length ≤ 2) : parseDigits cs ≤ 99 := by
  match cs with
  | [] => simp [parseDigits]
  | [a] =>
    have ha := isDigitC_bounds (hd a (by simp))
    simp only [parseDigits, List.foldl]
    omega
  | [a, b] =>
    have ha := isDigitC_bounds (hd a (by simp))
    have hb := isDigitC_bounds (hd b (by simp))
    simp only [parseDigits, List.foldl]
    omega
  | a :: b :: c :: t => simp at hl

/-! ## Shape of the normalized output -/

theorem finalHour_bounds {hour : Nat} (hh : hour ≤ 99) :
    1 ≤ finalHour (hourAfterZero hour) ∧ finalHour (hourAfterZero hour) ≤ 87 ∧
      (hour ≤ 24 → finalHour (hourAfterZero hour) ≤ 12) := by
  unfold finalHour hourAfterZero
  split_ifs <;> omega

theorem mer0Of_cases {g3 : Option (List Char)}
    (hg3 : g3 = none ∨ g3 = some ['a', 'm'] ∨ g3 = some ['p', 'm'] ∨
      g3 = some ['A', 'M'] ∨ g3 = some ['P', 'M']) :
    mer0Of g3 = "" ∨ mer0Of g3 = "AM" ∨ mer0Of g3 = "PM" := by
  rcases hg3 with rfl | rfl | rfl | rfl | rfl
  · exact Or.inl rfl
  · exact Or.inr (Or.inl (by decide))
  · exact Or.inr (Or.inr (by decide))
  · exact Or.inr (Or.inl (by decide))
  · exact Or.inr (Or.inr (by decide))

theorem inferMer_cases {hour : Nat} {mer0 : String}
    (h0 : mer0 = "" ∨ mer0 = "AM" ∨ mer0 = "PM") :
    inferMer hour mer0 = "AM" ∨ inferMer hour mer0 = "PM" := by
  unfold inferMer
  rcases h0 with rfl | rfl | rfl
  · rw [if_pos rfl]
    split_ifs
    · exact Or.inl rfl
    · exact Or.inr rfl
  · rw [if_neg (by decide)]
    exact Or.inl rfl
  · rw [if_neg (by decide)]
    exact Or.inr rfl

theorem finalMer_cases {hour2 : Nat} {mer1 : String} (h1 : mer1 = "AM" ∨ mer1 = "PM") :
    finalMer hour2 mer1 = "AM" ∨ finalMer hour2 mer1 = "PM" := by
  unfold finalMer
  split_ifs
  · exact Or.inr rfl
  · exact h1

theorem minuteOf_le {g2 : Option (List Char)}
    (hg2 : g2 = none ∨ ∃ e1 e2, g2 = some [e1, e2] ∧ isDigitC e1 ∧ isDigitC e2) :
    minuteOf g2 ≤ 99 := by
  rcases hg2 with rfl | ⟨e1, e2, rfl, h1, h2⟩
  · simp [minuteOf]
  · unfold minuteOf
    refine parseDigits_le ?_ (by simp)
    intro c hc
    simp only [List.mem_cons, List.not_mem_nil, or_false] at hc
    rcases hc with rfl | rfl <;> assumption

theorem normalizeTimeCore_wf {tm : TimeMatch}
    (hlen : tm.g1.length = 1 ∨ tm.g1.length = 2)
    (hdig : ∀ c ∈ tm.g1, isDigitC c)
    (hg2 : tm.g2 = none ∨ ∃ e1 e2, tm.g2 = some [e1, e2] ∧ isDigitC e1 ∧ isDigitC e2)
    (hg3 : tm.g3 = none ∨ tm.g3 = some ['a', 'm'] ∨ tm.g3 = some ['p', 'm'] ∨
      tm.g3 = some ['A', 'M'] ∨ tm.g3 = some ['P', 'M']) :
    ∃ h mv mer, normalizeTimeCore tm = renderTime h mv mer ∧ 1 ≤ h ∧ h ≤ 87 ∧
      (parseDigits tm.g1 ≤ 24 → h ≤ 12) ∧ mv ≤ 99 ∧ (mer = "AM" ∨ mer = "PM") := by
  have hh : parseDigits tm.g1 ≤ 99 := parseDigits_le hdig (by omega)
  obtain ⟨b1, b2, b3⟩ := finalHour_bounds hh
  exact ⟨_, _, _, rfl, b1, b2, b3, minuteOf_le hg2,
    finalMer_cases (inferMer_cases (mer0Of_cases hg3))⟩

/-! ## Transfer of matches between scan positions -/

theorem lastD_cons (p : Option Char) (a : Char) (as : List Char) :
    lastD p (a :: as) = lastD (some a) as := rfl

theorem lastD_append (p : Option Char) (xs ys : List Char) :
    lastD p (xs ++ ys) = lastD (lastD p xs) ys :=
  List.foldl_append _ _ _ _

theorem scanFrom_some_matchAt {prev cs x} (h : scanFrom prev cs = some x) :
    ∃ p' cs', matchAt p' cs' = some x.2.1 := by
  induction cs generalizing prev x with
  | nil =>
    rw [scanFrom] at h
    split at h
    next m heq =>
      cases h
      exact ⟨prev, [], heq⟩
    next => simp at h
  | cons c cs' ih =>
    rw [scanFrom] at h
    split at h
    next m heq =>
      cases h
      exact ⟨prev, c :: cs', heq⟩
    next =>
      split at h
      next pre m rest heq =>
        cases h
        show ∃ p' cs', matchAt p' cs' = some m
        exact ih heq
      next => simp at h

theorem scanFrom_none_matchAt {prev : Option Char} {bs : List Char}
    (h : scanFrom prev bs = none) : matchAt prev bs = none := by
  cases bs with
  | nil =>
    rw [scanFrom] at h
    split at h
    next m heq => simp at h
    next heq => exact heq
  | cons c cs' =>
    rw [scanFrom] at h
    split at h
    next m heq => simp at h
    next heq => exact heq

theorem scanFrom_append_none {bs : List Char} :
    ∀ {as : List Char} {prev}, scanFrom prev (as ++ bs) = none →
      matchAt (lastD prev as) bs = none := by
  intro as
  induction as with
  | nil =>
    intro prev h
    simp only [List.nil_append] at h
    exact scanFrom_none_matchAt h
  | cons a as' ih =>
    intro prev h
    simp only [List.cons_append] at h
    rw [scanFrom] at h
    split at h
    next m heq => simp at h
    next =>
      split at h
      next pre m rest heq => simp at h
      next heq =>
        rw [lastD_cons]
        exact ih heq

theorem scanFrom_append_some {bs : List Char} {m : TimeMatch} :
    ∀ {as : List Char} {prev}, matchAt (lastD prev as) bs = some m →
      scanFrom prev (as ++ bs) ≠ none := by
  intro as
  induction as with
  | nil =>
    intro prev h hnone
    simp only [List.nil_append] at hnone
    rw [show lastD prev [] = prev from rfl] at h
    rw [scanFrom_none_matchAt hnone] at h
    simp at h
  | cons a as' ih =>
    intro prev h hnone
    simp only [List.cons_append] at hnone
    rw [scanFrom] at hnone
    split at hnone
    next => simp at hnone
    next =>
      split at hnone
      next heq => simp at hnone
      next heq =>
        rw [lastD_cons] at h
        exact ih h heq

theorem scanFrom_some_decomp {prev cs x} (h : scanFrom prev cs = some x) :
    ∃ as bs, cs = as ++ bs ∧ matchAt (lastD prev as) bs ≠ none := by
  induction cs generalizing prev x with
  | nil =>
    rw [scanFrom] at h
    split at h
    next m heq => exact ⟨[], [], rfl, by simp [lastD, heq]⟩
    next => simp at h
  | cons c cs' ih =>
    rw [scanFrom] at h
    split at h
    next m heq => exact ⟨[], c :: cs', rfl, by simp [lastD, heq]⟩
    next =>
      split at h
      next pre m rest heq =>
        obtain ⟨as, bs, hcs, hne⟩ := ih heq
        exact ⟨c :: as, bs, by simp [hcs], hne⟩
      next => simp at h

theorem isDigit_isWord {c : Char} (h : isDigitC c = true) : isWordC c = true := by
  simp [isWordC, h]

theorem matchAt_isWordHead {prev cs m} (h : matchAt prev cs = some m) :
    isWordHead cs = true := by
  unfold matchAt at h
  split_ifs at h with h0 h1 h2
  cases cs with
  | nil => simp at h1
  | cons c t =>
    by_cases hd : isDigitC c
    · exact isDigit_isWord hd
    · rw [List.takeWhile_cons_of_neg hd] at h1
      simp at h1

/-! ## Success of the matcher at a standalone number -/

theorem dropWhile_of_takeWhile_nil {p : Char → Bool} {l : List Char}
    (h : l.takeWhile p = []) : l.dropWhile p = l := by
  cases l with
  | nil => rfl
  | cons a t =>
    by_cases hp : p a = true
    · rw [List.takeWhile_cons_of_pos hp] at h
      simp at h
    · rw [List.dropWhile_cons, if_neg hp]

theorem emptyMerTail_ne_none {sp rest : List Char}
    (h : sp ≠ [] ∨ isWordHead rest = false) : emptyMerTail sp rest ≠ none := by
  unfold emptyMerTail
  split_ifs with hw hemp
  · rcases h with h | h
    · cases sp with
      | nil => exact absurd rfl h
      | cons a t => simp at hemp
    · rw [hw] at h
      simp at h
  · simp
  · simp

theorem tailMatch_ne_none {cs : List Char}
    (h : cs.takeWhile isSpaceC ≠ [] ∨ isWordHead cs = false) : tailMatch cs ≠ none := by
  by_cases hsp : cs.takeWhile isSpaceC = []
  · have hw : isWordHead cs = false := by
      rcases h with h | h
      · exact absurd hsp h
      · exact h
    have hrest : cs.dropWhile isSpaceC = cs := dropWhile_of_takeWhile_nil hsp
    unfold tailMatch
    cases hma : merAlt (cs.dropWhile isSpaceC) with
    | some x =>
      exfalso
      have hh := merAlt_isWordHead hma
      rw [hrest, hw] at hh
      simp at hh
    | none =>
      exact emptyMerTail_ne_none (Or.inr (by rwa [hrest]))
  · unfold tailMatch
    cases hma : merAlt (cs.dropWhile isSpaceC) with
    | some x =>
      obtain ⟨mer, r⟩ := x
      show (if isWordHead r = true then
          emptyMerTail (cs.takeWhile isSpaceC) (cs.dropWhile isSpaceC)
        else some (cs.takeWhile isSpaceC ++ mer, some mer)) ≠ none
      split_ifs
      · exact emptyMerTail_ne_none (Or.inl hsp)
      · simp
    | none =>
      exact emptyMerTail_ne_none (Or.inl hsp)

theorem matchNoMin_ne_none {ds r1 : List Char} (h : tailMatch r1 ≠ none) :
    matchNoMin ds r1 ≠ none := by
  unfold matchNoMin
  cases ht : tailMatch r1 with
  | some x =>
    obtain ⟨t, g3⟩ := x
    simp
  | none => exact absurd ht h

theorem matchAt_standalone {prev : Option Char} {cs : List Char}
    (h : standaloneAt prev cs = true) : matchAt prev cs ≠ none := by
  unfold standaloneAt at h
  simp only [Bool.and_eq_true, Bool.or_eq_true, Bool.not_eq_true', beq_iff_eq] at h
  obtain ⟨⟨hprev, hlen⟩, hafter⟩ := h
  unfold matchAt
  rw [if_neg (by simp [hprev]), if_neg (by rcases hlen with h | h <;> omega),
    if_neg (by rcases hlen with h | h <;> omega)]
  split
  next e1 e2 r2 heq =>
    rw [heq] at hafter
    split_ifs with hde
    · split
      next t g3 heqt => simp
      next heqt => exact matchNoMin_ne_none (tailMatch_ne_none (Or.inr hafter))
    · exact matchNoMin_ne_none (tailMatch_ne_none (Or.inr hafter))
  next r1 heq =>
    exact matchNoMin_ne_none (tailMatch_ne_none (Or.inr hafter))

theorem scanFrom_standalone {cs : List Char} :
    ∀ {prev}, hasStandaloneNum prev cs = true → scanFrom prev cs ≠ none := by
  induction cs with
  | nil =>
    intro prev h
    simp [hasStandaloneNum, standaloneAt] at h
  | cons c cs' ih =>
    intro prev h
    rw [hasStandaloneNum] at h
    rw [Bool.or_eq_true] at h
    intro hnone
    have hm := scanFrom_none_matchAt hnone
    rcases h with h | h
    · exact matchAt_standalone h hm
    · rw [scanFrom] at hnone
      split at hnone
      next m heq => simp at hnone
      next =>
        split at hnone
        next heq => simp at hnone
        next heq => exact ih h heq

/-! ## The keyword split: the second of exactly two parts is a suffix of the
line starting with a non-word character -/

theorem kwAt_spec {prev : Option Char} {cs : List Char} {k : Nat}
    (h : kwAt prev cs = some k) :
    2 ≤ k ∧ k ≤ cs.length ∧ isWordHead (cs.drop k) = false := by
  unfold kwAt at h
  split_ifs at h with hw
  split at h
  next c1 c2 rest2 =>
    split_ifs at h with hti hto
    · split at h
      next c3 c4 r =>
        split_ifs at h with htill
        cases h
        refine ⟨by omega, by simp only [List.length_cons]; omega, ?_⟩
        simp only [Bool.and_eq_true, Bool.not_eq_true'] at htill
        exact htill.2
      next => simp at h
    · cases h
      simp only [Bool.and_eq_true, Bool.not_eq_true'] at hto
      exact ⟨by omega, by simp only [List.length_cons]; omega, hto.2⟩
  next => simp at h

theorem splitAux_succ (f : Nat) (prev : Option Char) (cs acc : List Char) :
    splitAux (f + 1) prev cs acc =
      match kwAt prev cs with
      | some k => acc.reverse :: splitAux f (lastD prev (cs.take k)) (cs.drop k) []
      | none =>
        match cs with
        | [] => [acc.reverse]
        | c :: cs' => splitAux f (some c) cs' (c :: acc) := rfl

theorem splitAux_succ_kw {f : Nat} {prev : Option Char} {cs acc : List Char} {k : Nat}
    (hk : kwAt prev cs = some k) :
    splitAux (f + 1) prev cs acc =
      acc.reverse :: splitAux f (lastD prev (cs.take k)) (cs.drop k) [] := by
  rw [splitAux_succ, hk]

theorem splitAux_succ_nil {f : Nat} {prev : Option Char} {acc : List Char}
    (hk : kwAt prev [] = none) : splitAux (f + 1) prev [] acc = [acc.reverse] := by
  rw [splitAux_succ, hk]

theorem splitAux_succ_cons {f : Nat} {prev : Option Char} {c : Char} {cs' acc : List Char}
    (hk : kwAt prev (c :: cs') = none) :
    splitAux (f + 1) prev (c :: cs') acc = splitAux f (some c) cs' (c :: acc) := by
  rw [splitAux_succ, hk]

theorem splitAux_ne_nil : ∀ (fuel : Nat) (prev : Option Char) (cs acc : List Char),
    splitAux fuel prev cs acc ≠ [] := by
  intro fuel
  induction fuel with
  | zero => intro prev cs acc; simp [splitAux]
  | succ f ih =>
    intro prev cs acc
    cases hk : kwAt prev cs with
    | some k =>
      rw [splitAux_succ_kw hk]
      simp
    | none =>
      cases cs with
      | nil =>
        rw [splitAux_succ_nil hk]
        simp
      | cons c cs' =>
        rw [splitAux_succ_cons hk]
        exact ih _ _ _

theorem splitAux_singleton : ∀ (fuel : Nat) (prev : Option Char) (cs acc : List Char)
    (x : List Char), cs.length < fuel → splitAux fuel prev cs acc = [x] →
    x = acc.reverse ++ cs := by
  intro fuel
  induction fuel with
  | zero => intro prev cs acc x hf; omega
  | succ f ih =>
    intro prev cs acc x hf h
    cases hk : kwAt prev cs with
    | some k =>
      exfalso
      rw [splitAux_succ_kw hk] at h
      have htail : splitAux f (lastD prev (cs.take k)) (cs.drop k) [] = [] := by
        have := congrArg List.tail h
        simpa using this
      exact splitAux_ne_nil _ _ _ _ htail
    | none =>
      cases cs with
      | nil =>
        rw [splitAux_succ_nil hk] at h
        have hx : acc.reverse = x := by simpa using h
        rw [← hx, List.append_nil]
      | cons c cs' =>
        rw [splitAux_succ_cons hk] at h
        have hlt : cs'.length < f := by
          simp only [List.length_cons] at hf
          omega
        have := ih (some c) cs' (c :: acc) x hlt h
        rw [this, List.reverse_cons, List.append_assoc]
        simp

theorem splitAux_pair : ∀ (fuel : Nat) (prev : Option Char) (cs acc p0 p1 : List Char),
    cs.length < fuel → splitAux fuel prev cs acc = [p0, p1] →
    ∃ n, p1 = cs.drop n ∧ isWordHead p1 = false := by
  intro fuel
  induction fuel with
  | zero => intro prev cs acc p0 p1 hf; omega
  | succ f ih =>
    intro prev cs acc p0 p1 hf h
    cases hk : kwAt prev cs with
    | some k =>
      obtain ⟨hk2, hklen, hkw⟩ := kwAt_spec hk
      rw [splitAux_succ_kw hk] at h
      have htail : splitAux f (lastD prev (cs.take k)) (cs.drop k) [] = [p1] := by
        have := congrArg List.tail h
        simpa using this
      have hlen : (cs.drop k).length < f := by
        rw [List.length_drop]
        omega
      have hp := splitAux_singleton f _ (cs.drop k) [] p1 hlen htail
      simp only [List.reverse_nil, List.nil_append] at hp
      exact ⟨k, hp, by rw [hp]; exact hkw⟩
    | none =>
      cases cs with
      | nil =>
        rw [splitAux_succ_nil hk] at h
        simp at h
      | cons c cs' =>
        rw [splitAux_succ_cons hk] at h
        have hlt : cs'.length < f := by
          simp only [List.length_cons] at hf
          omega
        obtain ⟨n, hp, hw⟩ := ih (some c) cs' (c :: acc) p0 p1 hlt h
        exact ⟨n + 1, by simpa using hp, hw⟩

theorem splitTillTo_pair {l p0 p1 : List Char} (h : splitTillTo l = [p0, p1]) :
    ∃ n, p1 = l.drop n ∧ isWordHead p1 = false :=
  splitAux_pair (l.length + 1) none l [] p0 p1 (by omega) h

/-! ## Inversion facts about rangeResult and processLine -/

theorem rangeResult_none_of_none {l : List Char} (hs : scanFrom none l = none) :
    rangeResult l = none := by
  unfold rangeResult
  split_ifs with hgate
  · split
    next p0 p1 hsp =>
      have hp1 : scanFrom none p1 = none := by
        cases hx : scanFrom none p1 with
        | none => rfl
        | some x =>
          exfalso
          obtain ⟨n, hdrop, hw⟩ := splitTillTo_pair hsp
          obtain ⟨as, bs, hcs, hmne⟩ := scanFrom_some_decomp hx
          cases as with
          | nil =>
            simp only [List.nil_append] at hcs
            cases hmm : matchAt (lastD none []) bs with
            | none => exact hmne hmm
            | some m =>
              have hhead := matchAt_isWordHead hmm
              rw [← hcs, hw] at hhead
              simp at hhead
          | cons a as' =>
            have hl : l = (l.take n ++ (a :: as')) ++ bs := by
              conv_lhs => rw [← List.take_append_drop n l]
              rw [← hdrop, hcs, List.append_assoc]
            cases hmm : matchAt (lastD none (a :: as')) bs with
            | none => exact hmne hmm
            | some m =>
              have hm2 : matchAt (lastD none (l.take n ++ (a :: as'))) bs = some m := by
                rw [lastD_append]
                rw [lastD_cons] at hmm ⊢
                exact hmm
              have hne := scanFrom_append_some hm2
              rw [← hl] at hne
              exact hne hs
      cases hx0 : scanFrom none p0 with
      | none => simp [hx0, hp1, normalizeTime]
      | some y => simp [hx0, hp1, normalizeTime]
    next => rfl
  · rfl

theorem rangeResult_shape {l : List Char} {t : String} {act : List Char}
    (h : rangeResult l = some (t, act)) :
    ∃ tm1 tm2, (∃ p1 c1, matchAt p1 c1 = some tm1) ∧ (∃ p2 c2, matchAt p2 c2 = some tm2) ∧
      t = normalizeTimeCore tm1 ++ "–" ++ normalizeTimeCore tm2 := by
  unfold rangeResult at h
  split_ifs at h with hgate
  split at h
  next p0 p1 hsp =>
    split at h
    next s e heq1 heq2 =>
      cases h
      unfold normalizeTime at heq1 heq2
      rw [Option.map_eq_some'] at heq1 heq2
      obtain ⟨y1, hy1, hy1e⟩ := heq1
      obtain ⟨y2, hy2, hy2e⟩ := heq2
      rw [Option.map_eq_some'] at hy1 hy2
      obtain ⟨x1, hx1, hx1e⟩ := hy1
      obtain ⟨x2, hx2, hx2e⟩ := hy2
      obtain ⟨p1', c1', hm1⟩ := scanFrom_some_matchAt hx1
      obtain ⟨p2', c2', hm2⟩ := scanFrom_some_matchAt hx2
      refine ⟨x1.2.1, x2.2.1, ⟨p1', c1', hm1⟩, ⟨p2', c2', hm2⟩, ?_⟩
      rw [← hy1e, ← hy2e, hx1e, hx2e]
    next hne => simp at h
  next => simp at h

theorem orElseStr_of_ne {a b : String} (ha : a ≠ "") : orElseStr a b = a := by
  unfold orElseStr
  rw [if_neg ha]

theorem normalizeTimeCore_ne_emdash (tm : TimeMatch) : normalizeTimeCore tm ≠ "—" := by
  obtain ⟨h, mv, mer, heq⟩ := normalizeTimeCore_shape tm
  rw [heq]
  exact renderTime_ne_emdash h mv mer

theorem normalizeTimeCore_ne_empty (tm : TimeMatch) : normalizeTimeCore tm ≠ "" := by
  obtain ⟨h, mv, mer, heq⟩ := normalizeTimeCore_shape tm
  rw [heq]
  exact renderTime_ne_empty h mv mer

theorem processLine_range {l : List Char} {t : String} {act : List Char}
    (h : rangeResult l = some (t, act)) :
    processLine l = ⟨orElseStr t "—", orElseStr ⟨cleanupActivity act⟩ "—", notesOf l⟩ := by
  unfold processLine
  rw [h]

theorem processLine_single {l pre rest : List Char} {m : TimeMatch}
    (h1 : rangeResult l = none) (h2 : scanFrom none l = some (pre, m, rest)) :
    processLine l = ⟨orElseStr (normalizeTimeCore m) "—",
      orElseStr ⟨cleanupActivity (jsTrim (removeWordFirst none (removeFirstOccur l m.matched)))⟩ "—",
      notesOf l⟩ := by
  unfold processLine
  rw [h1, h2]

theorem processLine_noTime {l : List Char} (h1 : rangeResult l = none)
    (h2 : scanFrom none l = none) :
    processLine l = ⟨"—", orElseStr ⟨cleanupActivity (workingText l)⟩ "—", notesOf l⟩ := by
  unfold processLine
  rw [h1, h2]

theorem orElseStr_emdash_ne (a : String) : orElseStr a "—" ≠ "" :=
  orElseStr_ne (by decide)

theorem orElseStr_dash_ne (a : String) : orElseStr a "-" ≠ "" :=
  orElseStr_ne (by decide)

theorem processLine_fields (l : List Char) :
    (processLine l).time ≠ "" ∧ (processLine l).activity ≠ "" := by
  cases hr : rangeResult l with
  | some ta =>
    obtain ⟨t, act⟩ := ta
    rw [processLine_range hr]
    exact ⟨orElseStr_emdash_ne _, orElseStr_emdash_ne _⟩
  | none =>
    cases hsc : scanFrom none l with
    | some x =>
      obtain ⟨pre, m, rest⟩ := x
      rw [processLine_single hr hsc]
      exact ⟨orElseStr_emdash_ne _, orElseStr_emdash_ne _⟩
    | none =>
      rw [processLine_noTime hr hsc]
      exact ⟨show ("—" : String) ≠ "" by decide, orElseStr_emdash_ne _⟩

theorem heuristicMer (h : Nat) :
    finalMer (hourAfterZero h) (inferMer h "") =
      if 7 ≤ h ∧ h ≤ 11 then "AM" else "PM" := by
  unfold finalMer hourAfterZero inferMer
  split_ifs <;> first | rfl | omega | simp_all

/-! ## Claim theorems -/

/-- C1: for every input string, the local formatter localFormatToTable returns a
well-formed three-column table (header row, separator row, and body rows whose
three cells are all non-empty, absence markers having been substituted for
empty fields).  The embedding is a total function, so no input raises an
error. -/
theorem localFormatToTable_wellFormed (content : String) :
    wellFormedTable (localFormatToTable content) := by
  refine ⟨(localRows content).map (fun r => (r.time, r.activity, orElseStr r.notes "-")),
    ?_, ?_⟩
  · intro c hc
    simp only [List.mem_map] at hc
    obtain ⟨r, hr, rfl⟩ := hc
    simp only [localRows, List.mem_map] at hr
    obtain ⟨l, hl, rfl⟩ := hr
    obtain ⟨ht, ha⟩ := processLine_fields l
    exact ⟨ht, ha, orElseStr_dash_ne _⟩
  · unfold localFormatToTable
    rw [List.map_map]
    rfl

/-- C2: the table has exactly one body row per trimmed non-blank input line,
and with zero non-blank lines the output is the header row and the separator
row only (followed by the final newline of the template literal). -/
theorem localFormatToTable_rowCount (content : String) :
    localFormatToTable content =
      headerStr ++ "\n" ++ sepStr ++ "\n" ++ joinWith ((localRows content).map renderRow) ∧
    (localRows content).length = (nonBlankLines content).length ∧
    (nonBlankLines content = [] →
      localFormatToTable content = headerStr ++ "\n" ++ sepStr ++ "\n") := by
  refine ⟨rfl, by simp [localRows], fun h => ?_⟩
  unfold localFormatToTable localRows
  rw [h]
  show headerStr ++ "\n" ++ sepStr ++ "\n" ++ joinWith [] = headerStr ++ "\n" ++ sepStr ++ "\n"
  rw [show joinWith [] = "" from rfl, String.append_empty]

/-- Witness for C2 at the empty input: no non-blank lines, so the output is
header and separator only. -/
theorem localFormatToTable_rowCount_witness :
    localFormatToTable "" = headerStr ++ "\n" ++ sepStr ++ "\n" :=
  (localFormatToTable_rowCount "").2.2 (by decide)

/-- C4: when a matched time expression has no meridiem, the normalized output
carries AM exactly for hours 7 through 11 and PM for every other hour, and an
hour above 12 is reduced by 12; in particular "7:30" normalizes to "7:30 AM"
and "13:00" to "1:00 PM". -/
theorem normalizeTime_meridiem_inference :
    (∀ (s : String) (tm : TimeMatch), firstMatchStr s = some tm → tm.g3 = none →
      normalizeTimeCore tm =
        renderTime (finalHour (hourAfterZero (parseDigits tm.g1))) (minuteOf tm.g2)
          (if 7 ≤ parseDigits tm.g1 ∧ parseDigits tm.g1 ≤ 11 then "AM" else "PM") ∧
      (12 < parseDigits tm.g1 →
        finalHour (hourAfterZero (parseDigits tm.g1)) = parseDigits tm.g1 - 12)) ∧
    normalizeFirst "7:30" = some "7:30 AM" ∧
    normalizeFirst "13:00" = some "1:00 PM" := by
  refine ⟨fun s tm hm hg3 => ⟨?_, fun h12 => ?_⟩, by decide, by decide⟩
  · have h0 : mer0Of tm.g3 = "" := by rw [hg3]; rfl
    unfold normalizeTimeCore
    rw [h0, heuristicMer]
  · unfold finalHour hourAfterZero
    split_ifs <;> omega

/-- Witness for C4: the inference theorem applied to the concrete match of
"7:30", whose rendering evaluates to "7:30 AM". -/
theorem normalizeTime_meridiem_inference_witness :
    normalizeTimeCore ⟨['7', ':', '3', '0'], ['7'], some ['3', '0'], none⟩ = "7:30 AM" := by
  have h := normalizeTime_meridiem_inference.1 "7:30"
    ⟨['7', ':', '3', '0'], ['7'], some ['3', '0'], none⟩ (by decide) rfl
  exact h.1.trans (by decide)

set_option maxRecDepth 1000000 in
set_option maxHeartbeats 4000000 in
theorem normalize_idem_check : ∀ h : Nat, h < 12 → ∀ mv : Nat, mv < 100 →
    normalizeFirst (renderTime (h + 1) mv "AM") = some (renderTime (h + 1) mv "AM") ∧
    normalizeFirst (renderTime (h + 1) mv "PM") = some (renderTime (h + 1) mv "PM") := by
  decide

/-- C3 counterexample: normalization is not idempotent as stated.  The list
"25" is matched with hour 25 and normalizes to "13:00 PM"; re-matching and
re-normalizing that canonical output yields "1:00 PM", a different string. -/
theorem normalizeTime_idem_cex :
    normalizeFirst "25" = some "13:00 PM" ∧
    normalizeFirst "13:00 PM" = some "1:00 PM" ∧
    ("1:00 PM" : String) ≠ "13:00 PM" := by
  decide

/-- C3 amended: time normalization is idempotent for every matched time
expression whose hour component is at most 24 (re-matching the canonical
output and normalizing again reproduces it); matched hours of 25 or more
escape the 12-hour range and are not fixed points. -/
theorem normalizeTime_idem_of_hour_le24 (s : String) (tm : TimeMatch)
    (hm : firstMatchStr s = some tm) (hh : parseDigits tm.g1 ≤ 24) :
    ∃ tm2, firstMatchStr (normalizeTimeCore tm) = some tm2 ∧
      normalizeTimeCore tm2 = normalizeTimeCore tm := by
  have hsc : ∃ p' cs', matchAt p' cs' = some tm := by
    unfold firstMatchStr at hm
    rw [Option.map_eq_some'] at hm
    obtain ⟨x, hx, hx2⟩ := hm
    obtain ⟨p', cs', hmm⟩ := scanFrom_some_matchAt hx
    exact ⟨p', cs', by rw [hmm, hx2]⟩
  obtain ⟨p', cs', hmm⟩ := hsc
  obtain ⟨hlen, hdig, hg2, hg3⟩ := matchAt_wf hmm
  obtain ⟨h3, mv, mer, heq, hb1, hb2, hb3, hmv, hmer⟩ :=
    normalizeTimeCore_wf hlen hdig hg2 hg3
  have h12 : h3 ≤ 12 := hb3 hh
  have key : normalizeFirst (renderTime h3 mv mer) = some (renderTime h3 mv mer) := by
    have hc := normalize_idem_check (h3 - 1) (by omega) mv (by omega)
    rw [Nat.sub_add_cancel hb1] at hc
    rcases hmer with rfl | rfl
    · exact hc.1
    · exact hc.2
  rw [← heq] at key
  unfold normalizeFirst normalizeTime at key
  rw [Option.map_eq_some'] at key
  obtain ⟨tm2, htm2, htm2e⟩ := key
  exact ⟨tm2, htm2, htm2e⟩

/-- Witness for the amended C3: the match of "7:30" has hour 7 and its
normalization is a fixed point. -/
theorem normalizeTime_idem_witness :
    ∃ tm2, firstMatchStr (normalizeTimeCore ⟨['7', ':', '3', '0'], ['7'], some ['3', '0'], none⟩) =
        some tm2 ∧
      normalizeTimeCore tm2 =
        normalizeTimeCore ⟨['7', ':', '3', '0'], ['7'], some ['3', '0'], none⟩ :=
  normalizeTime_idem_of_hour_le24 "7:30" ⟨['7', ':', '3', '0'], ['7'], some ['3', '0'], none⟩
    (by decide) (by decide)

set_option maxRecDepth 1000000 in
set_option maxHeartbeats 4000000 in
theorem render_ne_1300 : ∀ h : Nat, h < 12 → ∀ mv : Nat, mv < 60 →
    renderTime (h + 1) mv "AM" ≠ "13:00 PM" ∧ renderTime (h + 1) mv "PM" ≠ "13:00 PM" := by
  decide

/-- C9 counterexample: the line "25" receives the time field "13:00 PM", whose
hour 13 lies outside 1-12, so not every time field placed in a row is a
normalized 12-hour token. -/
theorem time_field_bounds_cex :
    (processLineStr "25").time = "13:00 PM" ∧
    ¬ timeFieldOK 12 59 (processLineStr "25").time := by
  have h1 : (processLineStr "25").time = "13:00 PM" := by decide
  refine ⟨h1, ?_⟩
  rw [h1]
  rintro (h | h | ⟨a, b, ha, hb, hab⟩)
  · exact absurd h (by decide)
  · obtain ⟨h, mv, mer, hh1, hh2, hmv, hmer, heq⟩ := h
    have hr := render_ne_1300 (h - 1) (by omega) mv (by omega)
    rw [Nat.sub_add_cancel hh1] at hr
    rcases hmer with rfl | rfl
    · exact hr.1 heq.symm
    · exact hr.2 heq.symm
  · have hm := endash_mem a b
    rw [← hab] at hm
    exact absurd hm (by decide)

/-- C9 amended: every time field is the absence marker, a single rendered
token, or an en dash range of rendered tokens, each with an explicit AM or PM
meridiem, a two-digit zero-padded minute of value at most 99, and an hour
between 1 and 87 (the hour can exceed 12 because the regex accepts any one- or
two-digit number, e.g. hour 99 normalizes to 87). -/
theorem time_field_shape (l : String) : timeFieldOK 87 99 (processLineStr l).time := by
  unfold processLineStr
  cases hr : rangeResult l.data with
  | some ta =>
    obtain ⟨t, act⟩ := ta
    rw [processLine_range hr]
    obtain ⟨tm1, tm2, ⟨p1, c1, hm1⟩, ⟨p2, c2, hm2⟩, rfl⟩ := rangeResult_shape hr
    obtain ⟨w1, w2, w3, w4⟩ := matchAt_wf hm1
    obtain ⟨h1, mv1, mer1, heq1, hb11, hb12, _, hmv1, hmer1⟩ := normalizeTimeCore_wf w1 w2 w3 w4
    obtain ⟨v1, v2, v3, v4⟩ := matchAt_wf hm2
    obtain ⟨h2, mv2, mer2, heq2, hb21, hb22, _, hmv2, hmer2⟩ := normalizeTimeCore_wf v1 v2 v3 v4
    show timeFieldOK 87 99
      (orElseStr (normalizeTimeCore tm1 ++ "–" ++ normalizeTimeCore tm2) "—")
    rw [orElseStr_of_ne (endash_append_ne_empty _ _)]
    refine Or.inr (Or.inr ⟨normalizeTimeCore tm1, normalizeTimeCore tm2, ?_, ?_, rfl⟩)
    · exact ⟨h1, mv1, mer1, hb11, hb12, hmv1, hmer1, heq1⟩
    · exact ⟨h2, mv2, mer2, hb21, hb22, hmv2, hmer2, heq2⟩
  | none =>
    cases hsc : scanFrom none l.data with
    | some x =>
      obtain ⟨pre, m, rest⟩ := x
      rw [processLine_single hr hsc]
      obtain ⟨p', cs', hmm⟩ : ∃ p' cs', matchAt p' cs' = some m :=
        scanFrom_some_matchAt hsc
      obtain ⟨w1, w2, w3, w4⟩ := matchAt_wf hmm
      obtain ⟨h1, mv1, mer1, heq1, hb11, hb12, _, hmv1, hmer1⟩ :=
        normalizeTimeCore_wf w1 w2 w3 w4
      show timeFieldOK 87 99 (orElseStr (normalizeTimeCore m) "—")
      rw [orElseStr_of_ne (normalizeTimeCore_ne_empty m)]
      exact Or.inr (Or.inl ⟨h1, mv1, mer1, hb11, hb12, hmv1, hmer1, heq1⟩)
    | none =>
      rw [processLine_noTime hr hsc]
      exact Or.inl rfl

/-- C10: a row's time field is the absence marker exactly when the line has no
substring matched by the time regex; any line containing a standalone one- or
two-digit number has a match and therefore a normalized, non-absent time
field — as for "Slept 8 hours", whose row carries "8:00 AM". -/
theorem time_absent_iff_no_match :
    (∀ l : String, (processLineStr l).time = "—" ↔ firstMatchStr l = none) ∧
    (∀ l : String, hasStandaloneNum none l.data = true → (processLineStr l).time ≠ "—") ∧
    (processLineStr "Slept 8 hours").time = "8:00 AM" := by
  have main : ∀ l : String, (processLineStr l).time = "—" ↔ firstMatchStr l = none := by
    intro l
    unfold processLineStr
    constructor
    · intro h
      cases hr : rangeResult l.data with
      | some ta =>
        exfalso
        obtain ⟨t, act⟩ := ta
        rw [processLine_range hr] at h
        obtain ⟨tm1, tm2, _, _, rfl⟩ := rangeResult_shape hr
        rw [show (⟨orElseStr (normalizeTimeCore tm1 ++ "–" ++ normalizeTimeCore tm2) "—",
          orElseStr ⟨cleanupActivity act⟩ "—", notesOf l.data⟩ : Row).time =
          orElseStr (normalizeTimeCore tm1 ++ "–" ++ normalizeTimeCore tm2) "—" from rfl,
          orElseStr_of_ne (endash_append_ne_empty _ _)] at h
        exact endash_append_ne_emdash _ _ h
      | none =>
        cases hsc : scanFrom none l.data with
        | some x =>
          exfalso
          obtain ⟨pre, m, rest⟩ := x
          rw [processLine_single hr hsc] at h
          rw [show (⟨orElseStr (normalizeTimeCore m) "—",
            orElseStr ⟨cleanupActivity (jsTrim (removeWordFirst none
              (removeFirstOccur l.data m.matched)))⟩ "—", notesOf l.data⟩ : Row).time =
            orElseStr (normalizeTimeCore m) "—" from rfl,
            orElseStr_of_ne (normalizeTimeCore_ne_empty m)] at h
          exact normalizeTimeCore_ne_emdash m h
        | none =>
          unfold firstMatchStr
          rw [hsc]
          rfl
    · intro h
      have hsc : scanFrom none l.data = none := by
        unfold firstMatchStr at h
        rwa [Option.map_eq_none'] at h
      rw [processLine_noTime (rangeResult_none_of_none hsc) hsc]
  refine ⟨main, fun l h => ?_, by decide⟩
  intro habs
  have := (main l).mp habs
  unfold firstMatchStr at this
  rw [Option.map_eq_none'] at this
  exact scanFrom_standalone h this

/-- Witness for C10: "Slept 8 hours" contains the standalone number 8, so its
time field is not the absence marker. -/
theorem time_absent_iff_no_match_witness :
    (processLineStr "Slept 8 hours").time ≠ "—" :=
  time_absent_iff_no_match.2.1 "Slept 8 hours" (by decide)

/-- C5 counterexample: the claim asserts that the hour-0 rendering of "0:15"
gives "12:00 PM"; the code preserves the minute and produces "12:15 PM". -/
theorem normalizeTime_zero_hour_cex :
    normalizeFirst "0:15" = some "12:15 PM" ∧ ("12:15 PM" : String) ≠ "12:00 PM" := by
  decide

set_option maxRecDepth 100000 in
/-- C5 amended: "0:15" with no meridiem does not normalize to "12:15 AM"; the
heuristic maps hour 0 to PM before the hour-0-to-12 substitution, and the
minute is preserved, giving "12:15 PM" (not "12:00 PM"). -/
theorem normalizeTime_zero_hour_amended :
    normalizeFirst "0:15" = some "12:15 PM" ∧
    normalizeFirst "0:15" ≠ some "12:15 AM" ∧
    normalizeFirst "0:15" ≠ some "12:00 PM" := by
  decide

set_option maxRecDepth 100000 in
/-- C6: the range line "Classes from 8:00 AM to 3:30 PM" produces the time
field "8:00 AM–3:30 PM" (en dash) and the activity "Classes from", the first
segment with its matched time removed, cleaned and trimmed; the bracketless
line leaves the notes empty. -/
theorem range_line_example :
    processLineStr "Classes from 8:00 AM to 3:30 PM" =
      ⟨"8:00 AM–3:30 PM", "Classes from", ""⟩ := by
  decide

set_option maxRecDepth 1000000 in
set_option maxHeartbeats 1000000 in
/-- C7 counterexample: on "Library till 5:20 PM - tabs! [2hrs]!!!" the notes
are "2hrs", but the activity still contains the bracketed fragment "[2hrs]" —
the single-time branch rebuilds the activity from the original line, undoing
the bracket removal — so the claim that the bracket fragment is removed from
the activity is false. -/
theorem bracket_line_cex :
    (processLineStr "Library till 5:20 PM - tabs! [2hrs]!!!").notes = "2hrs" ∧
    (processLineStr "Library till 5:20 PM - tabs! [2hrs]!!!").activity =
      "Library till - tabs [2hrs]" ∧
    containsSeq (processLineStr "Library till 5:20 PM - tabs! [2hrs]!!!").activity.data
      "[2hrs]".data = true := by
  decide

set_option maxRecDepth 1000000 in
set_option maxHeartbeats 1000000 in
/-- C7 amended: the notes are "2hrs" and the activity is a non-empty trimmed
string with every exclamation mark removed, but it is
"Library till - tabs [2hrs]": the bracketed fragment reappears because the
single-time handler recomputes the activity from the original line, and the
dash survives because it is not trailing. -/
theorem bracket_line_amended :
    (processLineStr "Library till 5:20 PM - tabs! [2hrs]!!!").notes = "2hrs" ∧
    (processLineStr "Library till 5:20 PM - tabs! [2hrs]!!!").activity =
      "Library till - tabs [2hrs]" ∧
    (processLineStr "Library till 5:20 PM - tabs! [2hrs]!!!").activity ≠ "" ∧
    ('!' ∉ (processLineStr "Library till 5:20 PM - tabs! [2hrs]!!!").activity.data) ∧
    jsTrim (processLineStr "Library till 5:20 PM - tabs! [2hrs]!!!").activity.data =
      (processLineStr "Library till 5:20 PM - tabs! [2hrs]!!!").activity.data := by
  decide

set_option maxRecDepth 100000 in
/-- C8 counterexample: on "[5] fun" the working text (the line with the
bracketed fragment removed) is "fun", which contains no time token, yet the
row's time field is "5:00 PM" — the single-time search ran on the original
line, not on the working text, refuting the claim. -/
theorem working_text_cex :
    (processLineStr "[5] fun").time = "5:00 PM" ∧
    scanFrom none (workingText "[5] fun".data) = none ∧
    workingText "[5] fun".data = "fun".data := by
  decide

set_option maxRecDepth 100000 in
/-- C8 amended: the range-detection split and the single-time search and
removal operate on the original line; the bracket-removed working text serves
only as the activity candidate of the no-time branch, and when a time is found
the activity is rebuilt from the original line (with the matched substring's
first occurrence and the first at/around/by word removed). -/
theorem working_text_original_line :
    (∀ l : List Char, rangeResult l = none → scanFrom none l = none →
      processLine l = ⟨"—", orElseStr ⟨cleanupActivity (workingText l)⟩ "—", notesOf l⟩) ∧
    (∀ (l pre rest : List Char) (m : TimeMatch),
      rangeResult l = none → scanFrom none l = some (pre, m, rest) →
      (processLine l).activity =
        orElseStr ⟨cleanupActivity (jsTrim (removeWordFirst none
          (removeFirstOccur l m.matched)))⟩ "—") := by
  constructor
  · intro l h1 h2
    exact processLine_noTime h1 h2
  · intro l pre rest m h1 h2
    rw [processLine_single h1 h2]

/-- Witness for the amended C8 at "[5] fun": the single-time branch builds the
activity from the original line. -/
theorem working_text_original_line_witness :
    (processLineStr "[5] fun").activity =
      orElseStr ⟨cleanupActivity (jsTrim (removeWordFirst none
        (removeFirstOccur "[5] fun".data ['5'])))⟩ "—" :=
  working_text_original_line.2 "[5] fun".data ['['] "] fun".data
    ⟨['5'], ['5'], none, none⟩ (by decide) (by decide)
